import Mathlib

/-!
Verification of the core of `cargo-lpatch` against its design specification.

The development shallowly embeds the program's core components:
dependency-source classification (`src/cargo_toml.rs`), repository-URL
cleaning (`src/crates_io.rs`), workspace layout resolution
(`src/workspace.rs`), override-document reconciliation (`src/config.rs`)
and the name-similarity fallback (`src/main.rs`).

Rust string operations (`starts_with`, `ends_with`, `contains`, `replace`,
`to_lowercase`) are modelled as executable functions on character lists,
with the same semantics as the Rust standard library on the ASCII inputs
the tool manipulates.  Rust `HashMap`s are modelled by association lists
holding the same key/value contents; where a claim depends on the
iteration order of a `HashMap` (which the Rust standard library leaves
unspecified and randomizes per process), the set of possible iteration
orders is modelled explicitly as the set of permutations of the stored
entries.
-/

namespace Lpatch

/-! ### Rust string primitives on character lists -/

abbrev Chars := List Char

/-- Model of Rust `str::to_lowercase` (agrees with it on ASCII text). -/
def lower (s : Chars) : Chars := s.map Char.toLower

/-- Model of Rust `str::starts_with pat`: `isPrefixB pat s` is true iff `pat`
is a prefix of `s`. -/
def isPrefixB : Chars → Chars → Bool
  | [], _ => true
  | _ :: _, [] => false
  | a :: p, b :: s => a == b && isPrefixB p s

/-- Model of Rust `str::ends_with pat`. -/
def isSuffixB (pat s : Chars) : Bool := isPrefixB pat.reverse s.reverse

/-- Model of Rust `str::contains pat` (substring containment):
`isInfixB pat s` is true iff `pat` occurs contiguously in `s`. -/
def isInfixB (pat : Chars) : Chars → Bool
  | [] => pat.isEmpty
  | c :: t => isPrefixB pat (c :: t) || isInfixB pat t

/-- Worker for `replaceAll`, with explicit fuel (one unit per character of
the subject string suffices, because every step consumes at least one
character when the pattern is non-empty). -/
def replaceGo (pat rep : Chars) : Nat → Chars → Chars
  | 0, s => s
  | _ + 1, [] => []
  | fuel + 1, c :: rest =>
    if !pat.isEmpty && isPrefixB pat (c :: rest) then
      rep ++ replaceGo pat rep fuel ((c :: rest).drop pat.length)
    else
      c :: replaceGo pat rep fuel rest

/-- Model of Rust `str::replace pat rep`: replaces every non-overlapping
occurrence of `pat`, scanning left to right. -/
def replaceAll (s pat rep : Chars) : Chars := replaceGo pat rep s.length s

theorem isPrefixB_append (p : Chars) : ∀ u v : Chars,
    isPrefixB p u = true → isPrefixB p (u ++ v) = true := by
  induction p with
  | nil => intro u v _; simp [isPrefixB]
  | cons a p ih =>
    intro u v h
    cases u with
    | nil => simp [isPrefixB] at h
    | cons b u =>
      simp only [isPrefixB, Bool.and_eq_true] at h
      simp only [List.cons_append, isPrefixB, Bool.and_eq_true]
      exact ⟨h.1, ih u v h.2⟩

theorem isInfixB_nil_pat : ∀ s : Chars, isInfixB [] s = true := by
  intro s
  cases s with
  | nil => simp [isInfixB, List.isEmpty]
  | cons c t => simp [isInfixB, isPrefixB]

theorem isPrefixB_isInfixB (p s : Chars) (h : isPrefixB p s = true) :
    isInfixB p s = true := by
  cases s with
  | nil =>
    cases p with
    | nil => simp [isInfixB, List.isEmpty]
    | cons a q => simp [isPrefixB] at h
  | cons c t => simp [isInfixB, h]

theorem isInfixB_append (pat : Chars) : ∀ u v : Chars,
    isInfixB pat u = true → isInfixB pat (u ++ v) = true := by
  intro u
  induction u with
  | nil =>
    intro v h
    simp only [isInfixB, List.isEmpty_iff] at h
    subst h
    simpa using isInfixB_nil_pat v
  | cons c u ih =>
    intro v h
    simp only [isInfixB, Bool.or_eq_true] at h
    rcases h with h | h
    · simp only [List.cons_append, isInfixB, Bool.or_eq_true]
      exact Or.inl (isPrefixB_append pat (c :: u) v h)
    · simp only [List.cons_append, isInfixB, Bool.or_eq_true]
      exact Or.inr (ih v h)

/-- Decidable equality for `Except`, used to evaluate concrete runs of the
fallible functions of the embedding. -/
instance {ε α : Type} [DecidableEq ε] [DecidableEq α] : DecidableEq (Except ε α) := fun a b =>
  match a, b with
  | .ok x, .ok y => if h : x = y then .isTrue (by rw [h]) else .isFalse (by simp [h])
  | .error x, .error y => if h : x = y then .isTrue (by rw [h]) else .isFalse (by simp [h])
  | .ok _, .error _ => .isFalse (by simp)
  | .error _, .ok _ => .isFalse (by simp)

/-! ### TOML values

A minimal model of `toml::Value`, rich enough for the documents the tool
manipulates: the opaque pass-through content of the override document and
the unrecognized fields of dependency declarations. -/

inductive TomlValue where
  | str (s : String)
  | int (n : Int)
  | boolean (b : Bool)
  | arr (elems : List TomlValue)
  | table (kvs : List (String × TomlValue))

/-! ### Dependency classification (`src/cargo_toml.rs`) -/

/-- Raw dependency declaration (`DependencyDefinition` in `cargo_toml.rs`):
either a bare version string or a detailed table with optional fields, the
unrecognized ones gathered in `other`. -/
inductive DependencyDefinition where
  | Simple (version : String)
  | Detailed (version git branch tag rev path : Option String)
      (other : List (String × TomlValue))

/-- `DependencyType` in `cargo_toml.rs`. -/
inductive DependencyType where
  | Version (version : String)
  | Git (git : String) (branch tag rev : Option String)
  | Path (path : String)
deriving DecidableEq

/-- `DependencyInfo` in `cargo_toml.rs`. -/
structure DependencyInfo where
  name : String
  dep_type : DependencyType
deriving DecidableEq

/-- `CargoToml::parse_dependency_definition` (`cargo_toml.rs:153-204`):
classifies one raw declaration with precedence git > path > version,
erroring when none of the three fields is present. -/
def parse_dependency_definition (name : String) (d : DependencyDefinition) :
    Except String DependencyInfo :=
  match d with
  | .Simple version => .ok ⟨name, .Version version⟩
  | .Detailed version git branch tag rev path _ =>
    match git with
    | some git_url => .ok ⟨name, .Git git_url branch tag rev⟩
    | none =>
      match path with
      | some path_str => .ok ⟨name, .Path path_str⟩
      | none =>
        match version with
        | some version_str => .ok ⟨name, .Version version_str⟩
        | none => .error ("Invalid dependency definition for '" ++ name ++ "'")

/-- `CargoToml::parse_dependencies` (`cargo_toml.rs:136-150`): classifies a
map of declarations, logging and dropping (`filter_map` + `.ok()`) the ones
that fail to classify.  The `HashMap` is modelled by its entry list. -/
def parse_dependencies (deps : List (String × DependencyDefinition)) :
    List DependencyInfo :=
  deps.filterMap fun nd => (parse_dependency_definition nd.1 nd.2).toOption

/-- The dependency-holding sections of `CargoToml` (`cargo_toml.rs:56-66`). -/
structure CargoToml where
  dependencies : Option (List (String × DependencyDefinition))
  dev_dependencies : Option (List (String × DependencyDefinition))
  build_dependencies : Option (List (String × DependencyDefinition))

/-- `CargoToml::get_all_dependencies` (`cargo_toml.rs:107-126`). -/
def get_all_dependencies (c : CargoToml) : List DependencyInfo :=
  (match c.dependencies with
   | some deps => parse_dependencies deps
   | none => []) ++
  (match c.dev_dependencies with
   | some deps => parse_dependencies deps
   | none => []) ++
  (match c.build_dependencies with
   | some deps => parse_dependencies deps
   | none => [])

/-- Claim C1: for a detailed raw declaration, classification yields the Git
kind whenever `git` is present (regardless of co-present `version`/`path`),
the Path kind when `path` is present and `git` absent, the Version kind when
only `version` is present, and a classification error naming the offending
dependency when none of the three fields is present. -/
theorem classify_precedence (name : String)
    (version git branch tag rev path : Option String)
    (other : List (String × TomlValue)) :
    (∀ g, git = some g →
      parse_dependency_definition name (.Detailed version git branch tag rev path other)
        = .ok ⟨name, .Git g branch tag rev⟩) ∧
    (git = none → ∀ p, path = some p →
      parse_dependency_definition name (.Detailed version git branch tag rev path other)
        = .ok ⟨name, .Path p⟩) ∧
    (git = none → path = none → ∀ v, version = some v →
      parse_dependency_definition name (.Detailed version git branch tag rev path other)
        = .ok ⟨name, .Version v⟩) ∧
    (git = none → path = none → version = none →
      parse_dependency_definition name (.Detailed version git branch tag rev path other)
        = .error ("Invalid dependency definition for '" ++ name ++ "'")) := by
  refine ⟨?_, ?_, ?_, ?_⟩
  · intro g hg; subst hg; rfl
  · intro hg p hp; subst hg; subst hp; rfl
  · intro hg hp v hv; subst hg; subst hp; subst hv; rfl
  · intro hg hp hv; subst hg; subst hp; subst hv; rfl

/-- Concrete instantiation of `classify_precedence`: a declaration carrying
all three of git/path/version classifies as Git; one with path and version
classifies as Path; one with only version classifies as Version; one with
none of them errors, naming the dependency. -/
theorem classify_precedence_witness :
    (parse_dependency_definition "dep"
        (.Detailed (some "1.0") (some "https://example.com/r.git") none none none (some "p") [])
      = .ok ⟨"dep", .Git "https://example.com/r.git" none none none⟩) ∧
    (parse_dependency_definition "dep"
        (.Detailed (some "1.0") none none none none (some "p") [])
      = .ok ⟨"dep", .Path "p"⟩) ∧
    (parse_dependency_definition "dep"
        (.Detailed (some "1.0") none none none none none [])
      = .ok ⟨"dep", .Version "1.0"⟩) ∧
    (parse_dependency_definition "dep"
        (.Detailed none none none none none none [])
      = .error "Invalid dependency definition for 'dep'") := by
  refine ⟨?_, ?_, ?_, ?_⟩
  · exact (classify_precedence "dep" (some "1.0") (some "https://example.com/r.git")
      none none none (some "p") []).1 _ rfl
  · exact (classify_precedence "dep" (some "1.0") none
      none none none (some "p") []).2.1 rfl _ rfl
  · exact (classify_precedence "dep" (some "1.0") none
      none none none none []).2.2.1 rfl rfl _ rfl
  · exact (classify_precedence "dep" none none
      none none none none []).2.2.2 rfl rfl rfl

/-! ### Repository-URL cleaning (`src/crates_io.rs`) -/

/-- `CratesIoClient::is_valid_git_url` (`crates_io.rs:88-94`): permissive
"looks like a fetchable reference" check. -/
def is_valid_git_url (url : Chars) : Bool :=
  isPrefixB "http://".data url || isPrefixB "https://".data url ||
  isPrefixB "git://".data url || isPrefixB "ssh://".data url ||
  isInfixB "git@".data url

/-- `CratesIoClient::clean_repository_url` (`crates_io.rs:64-86`): strips a
trailing `/tree/master` or `/tree/main` suffix (via `str::replace`), appends
`.git` when the URL contains `github.com` and does not already end in
`.git`, then validates the result. -/
def clean_repository_url (url : Chars) : Except Chars Chars :=
  let c1 := if isSuffixB "/tree/master".data url
    then replaceAll url "/tree/master".data [] else url
  let c2 := if isSuffixB "/tree/main".data c1
    then replaceAll c1 "/tree/main".data [] else c1
  let c3 := if isInfixB "github.com".data c2 && !(isSuffixB ".git".data c2)
    then c2 ++ ".git".data else c2
  if is_valid_git_url c3 then .ok c3
  else .error ("Invalid repository URL: ".data ++ c3)

theorem is_valid_git_url_append (u v : Chars) (h : is_valid_git_url u = true) :
    is_valid_git_url (u ++ v) = true := by
  simp only [is_valid_git_url, Bool.or_eq_true] at h ⊢
  rcases h with ((((h | h) | h) | h) | h)
  · exact Or.inl (Or.inl (Or.inl (Or.inl (isPrefixB_append _ u v h))))
  · exact Or.inl (Or.inl (Or.inl (Or.inr (isPrefixB_append _ u v h))))
  · exact Or.inl (Or.inl (Or.inr (isPrefixB_append _ u v h)))
  · exact Or.inl (Or.inr (isPrefixB_append _ u v h))
  · exact Or.inr (isInfixB_append _ u v h)

/-- Claim C4 counterexample: the claim maps
`https://example.com/user/repo/tree/main` to
`https://example.com/user/repo.git`, but the code recognizes only URLs
containing `github.com` for archive-suffix appending, so the result keeps no
`.git` suffix. -/
theorem clean_reference_counterexample :
    clean_repository_url "https://example.com/user/repo/tree/main".data
      = .ok "https://example.com/user/repo".data ∧
    ("https://example.com/user/repo".data : Chars)
      ≠ "https://example.com/user/repo.git".data := by
  constructor
  · decide
  · decide

/-- Claim C4 (amended): URL cleaning strips only a literal `/tree/master` or
`/tree/main` suffix, and appends `.git` only to URLs containing
`github.com`: `https://github.com/user/repo/tree/main` maps to
`https://github.com/user/repo.git`, while
`https://example.com/user/repo/tree/main` maps to
`https://example.com/user/repo`; a URL with no tree suffix and no
`github.com` is returned unmodified when it passes the permissive
clonable-looking check and rejected with an error naming the URL when it
does not, and one containing `github.com` without a `.git` suffix gets
`.git` appended. -/
theorem clean_reference_amended :
    (clean_repository_url "https://github.com/user/repo/tree/main".data
        = .ok "https://github.com/user/repo.git".data) ∧
    (clean_repository_url "https://example.com/user/repo/tree/main".data
        = .ok "https://example.com/user/repo".data) ∧
    (∀ url : Chars,
      isSuffixB "/tree/master".data url = false →
      isSuffixB "/tree/main".data url = false →
      isInfixB "github.com".data url = false →
      is_valid_git_url url = true →
      clean_repository_url url = .ok url) ∧
    (∀ url : Chars,
      isSuffixB "/tree/master".data url = false →
      isSuffixB "/tree/main".data url = false →
      isInfixB "github.com".data url = true →
      isSuffixB ".git".data url = false →
      is_valid_git_url url = true →
      clean_repository_url url = .ok (url ++ ".git".data)) ∧
    (∀ url : Chars,
      isSuffixB "/tree/master".data url = false →
      isSuffixB "/tree/main".data url = false →
      isInfixB "github.com".data url = false →
      is_valid_git_url url = false →
      clean_repository_url url
        = .error ("Invalid repository URL: ".data ++ url)) := by
  refine ⟨by decide, by decide, ?_, ?_, ?_⟩
  · intro url h1 h2 h3 h4
    simp [clean_repository_url, h1, h2, h3, h4]
  · intro url h1 h2 h3 h4 h5
    simp [clean_repository_url, h1, h2, h3, h4,
      is_valid_git_url_append url ".git".data h5]
  · intro url h1 h2 h3 h4
    simp [clean_repository_url, h1, h2, h3, h4]

/-- Concrete instantiation of `clean_reference_amended`: a non-GitHub URL is
returned unmodified, a GitHub URL lacking `.git` gets it appended, and a
reference failing the clonable-looking check is rejected with an error
naming it. -/
theorem clean_reference_amended_witness :
    clean_repository_url "https://gitlab.com/user/repo".data
      = .ok "https://gitlab.com/user/repo".data ∧
    clean_repository_url "https://github.com/user/repo".data
      = .ok ("https://github.com/user/repo".data ++ ".git".data) ∧
    clean_repository_url "example.com/user/repo".data
      = .error ("Invalid repository URL: ".data ++ "example.com/user/repo".data) := by
  refine ⟨?_, ?_, ?_⟩
  · exact clean_reference_amended.2.2.1 _ (by decide) (by decide) (by decide) (by decide)
  · exact clean_reference_amended.2.2.2.1 _ (by decide) (by decide) (by decide)
      (by decide) (by decide)
  · exact clean_reference_amended.2.2.2.2 _ (by decide) (by decide) (by decide)
      (by decide)

/-! ### Workspace layout resolution (`src/workspace.rs`) -/

/-- A directory inside a cloned tree, as path components relative to the
repository root (the root itself is `[]`). -/
abbrev DirPath := List String

/-- The part of the cloned tree's on-disk state the layout resolver reads:
the existing directories, in directory-listing order (the order `read_dir`
yields entries), and for each directory holding a `Cargo.toml` the declared
`package.name` (`none` when the manifest has no `package` section). -/
structure FS where
  dirs : List DirPath
  manifests : List (DirPath × Option String)

def dirExists (fs : FS) (p : DirPath) : Bool := fs.dirs.contains p

/-- The immediate sub-directories of `p`, in listing order. -/
def childDirs (fs : FS) (p : DirPath) : List DirPath :=
  fs.dirs.filter fun d => d.length == p.length + 1 && d.take p.length == p

def manifestAt (fs : FS) (p : DirPath) : Option (Option String) :=
  (fs.manifests.find? (fun m => m.1 == p)).map (·.2)

/-- `WorkspaceDetector::is_target_crate` (`workspace.rs:157-175`): true iff
the directory holds a manifest whose declared package name equals the
target exactly. -/
def is_target_crate (fs : FS) (p : DirPath) (crate_name : String) : Bool :=
  match manifestAt fs p with
  | none => false
  | some none => false
  | some (some n) => n == crate_name

/-- Splitting a character list at a separator (the component structure the
Rust `Path::join`/`Path::parent` calls work with). -/
def splitOnChar (sep : Char) : Chars → List Chars
  | [] => [[]]
  | c :: rest =>
    match splitOnChar sep rest with
    | [] => [[c]]
    | h :: t => if c == sep then [] :: h :: t else (c :: h) :: t

def patternComps (pattern : String) : List String :=
  (splitOnChar '/' pattern.data).map (fun cs => String.mk cs)

/-- `WorkspaceDetector::expand_glob_pattern` (`workspace.rs:124-154`): a
pattern containing `*` expands, when it ends in `/*`, to every immediate
sub-directory of its parent directory (in listing order); a literal pattern
expands to itself when the path exists. -/
def expand_glob_pattern (fs : FS) (pattern : String) : List DirPath :=
  if pattern.data.contains '*' then
    let parent := (patternComps pattern).dropLast
    if dirExists fs parent then
      if isSuffixB "/*".data pattern.data then childDirs fs parent else []
    else []
  else
    let direct := patternComps pattern
    if dirExists fs direct then [direct] else []

/-- The `members`/`exclude` lists of a root manifest's `[workspace]` section
(`WorkspaceConfig` in `workspace.rs:7-13`). -/
structure WorkspaceConfig where
  members : Option (List String)
  exclude : Option (List String)

/-- Candidate collection of `find_crate_in_workspace` (`workspace.rs:91-103`):
expand every member pattern in order, then for each exclude pattern drop the
candidates it expands to. -/
def workspace_candidates (fs : FS) (w : WorkspaceConfig) : List DirPath :=
  let members := w.members.getD []
  let excl := w.exclude.getD []
  let candidates := members.foldl (fun acc m => acc ++ expand_glob_pattern fs m) []
  excl.foldl (fun acc e => acc.filter (fun p => !(expand_glob_pattern fs e).contains p))
    candidates

/-- `WorkspaceDetector::find_crate_in_workspace` (`workspace.rs:77-121`):
return the first candidate whose declared package name equals the target,
or an error naming the target. -/
def find_crate_in_workspace (fs : FS) (crate_name : String) (w : WorkspaceConfig) :
    Except String DirPath :=
  match (workspace_candidates fs w).find? (fun p => is_target_crate fs p crate_name) with
  | some p => .ok p
  | none => .error ("Crate '" ++ crate_name ++ "' not found in workspace members")

theorem find?_first {α : Type} (p : α → Bool) (l : List α) (a : α)
    (h : l.find? p = some a) :
    ∃ l1 l2, l = l1 ++ a :: l2 ∧ p a = true ∧ ∀ x ∈ l1, p x = false := by
  induction l with
  | nil => simp [List.find?] at h
  | cons b t ih =>
    cases hpb : p b with
    | true =>
      simp only [List.find?, hpb, Option.some.injEq] at h
      subst h
      exact ⟨[], t, by simp, hpb, by simp⟩
    | false =>
      simp only [List.find?, hpb] at h
      obtain ⟨l1, l2, hl, hpa, hall⟩ := ih h
      refine ⟨b :: l1, l2, by rw [hl]; simp, hpa, ?_⟩
      intro x hx
      rcases List.mem_cons.mp hx with rfl | hx
      · exact hpb
      · exact hall x hx

/-- The tree of the claim's scenario: `crates/foo`, `crates/bar`,
`crates/internal`, each declaring a package named after its directory. -/
def exampleTreeFS : FS :=
  { dirs := [[], ["crates"], ["crates", "foo"], ["crates", "bar"], ["crates", "internal"]],
    manifests := [(["crates", "foo"], some "foo"), (["crates", "bar"], some "bar"),
      (["crates", "internal"], some "internal")] }

/-- The root manifest of the claim's scenario: `members = ["crates/*"]`,
`exclude = ["crates/internal"]`. -/
def exampleWorkspaceConfig : WorkspaceConfig :=
  ⟨some ["crates/*"], some ["crates/internal"]⟩

/-- Claim C2: on the members/exclude scenario, resolving `"bar"` returns the
`crates/bar` path and resolving `"internal"` fails with the not-found error
even though the directory exists; in general, a successful resolution
returns the first candidate (in expansion order) whose declared package name
equals the target, every earlier candidate not matching. -/
theorem find_crate_in_workspace_spec :
    (find_crate_in_workspace exampleTreeFS "bar" exampleWorkspaceConfig
        = .ok ["crates", "bar"]) ∧
    (dirExists exampleTreeFS ["crates", "internal"] = true) ∧
    (find_crate_in_workspace exampleTreeFS "internal" exampleWorkspaceConfig
        = .error "Crate 'internal' not found in workspace members") ∧
    (∀ fs n w p, find_crate_in_workspace fs n w = .ok p →
      ∃ l1 l2, workspace_candidates fs w = l1 ++ p :: l2 ∧
        is_target_crate fs p n = true ∧
        ∀ q ∈ l1, is_target_crate fs q n = false) := by
  refine ⟨by decide, by decide, by decide, ?_⟩
  intro fs n w p h
  unfold find_crate_in_workspace at h
  cases hf : (workspace_candidates fs w).find? (fun q => is_target_crate fs q n) with
  | none => rw [hf] at h; cases h
  | some q =>
    rw [hf] at h
    cases h
    exact find?_first _ _ _ hf

/-- Concrete instantiation of `find_crate_in_workspace_spec`: the first-match
characterization at the scenario's successful resolution of `"bar"`. -/
theorem find_crate_in_workspace_spec_witness :
    ∃ l1 l2,
      workspace_candidates exampleTreeFS exampleWorkspaceConfig
        = l1 ++ ["crates", "bar"] :: l2 ∧
      is_target_crate exampleTreeFS ["crates", "bar"] "bar" = true ∧
      ∀ q ∈ l1, is_target_crate exampleTreeFS q "bar" = false :=
  find_crate_in_workspace_spec.2.2.2 exampleTreeFS "bar" exampleWorkspaceConfig
    ["crates", "bar"] (by decide)

/-! ### Override-document reconciliation (`src/config.rs`) -/

/-- `PatchConfig` (`config.rs:16-19`): the single-field record holding the
local path of a redirect entry. -/
structure PatchConfig where
  path : String
deriving DecidableEq

/-- `CargoConfig` (`config.rs:7-14`).  The two nested `HashMap`s are
modelled by association lists holding the same key/value contents (the list
order records insertion history; it is not a promised iteration order of
the Rust map), and the `#[serde(flatten)]` bag by the remaining top-level
key/value pairs of the document. -/
structure CargoConfig where
  patch : Option (List (String × List (String × PatchConfig)))
  other : List (String × TomlValue)

/-- Parsing one `PatchConfig` from a TOML value: a table with a string
`path` field; unknown fields are ignored, as serde does by default. -/
def parsePatchConfig (v : TomlValue) : Except String PatchConfig :=
  match v with
  | .table kvs =>
    match kvs.find? (fun kv => kv.1 == "path") with
    | some kv =>
      match kv.2 with
      | .str s => .ok ⟨s⟩
      | _ => .error "Failed to parse config.toml"
    | none => .error "Failed to parse config.toml"
  | _ => .error "Failed to parse config.toml"

def parsePatchGroup (v : TomlValue) :
    Except String (List (String × PatchConfig)) :=
  match v with
  | .table kvs =>
    kvs.mapM (fun kv => (parsePatchConfig kv.2).map (fun pc => (kv.1, pc)))
  | _ => .error "Failed to parse config.toml"

def parsePatchTable (v : TomlValue) :
    Except String (List (String × List (String × PatchConfig))) :=
  match v with
  | .table kvs =>
    kvs.mapM (fun kv => (parsePatchGroup kv.2).map (fun g => (kv.1, g)))
  | _ => .error "Failed to parse config.toml"

/-- `CargoConfig::load_from_file` (`config.rs:34-42`), at the document
level: deserialize the `patch` key into the typed table and keep every
other top-level key in the pass-through bag. -/
def load_config (doc : List (String × TomlValue)) : Except String CargoConfig :=
  match doc.find? (fun kv => kv.1 == "patch") with
  | none => .ok ⟨none, doc.filter (fun kv => kv.1 != "patch")⟩
  | some kv =>
    (parsePatchTable kv.2).map
      (fun t => ⟨some t, doc.filter (fun kv2 => kv2.1 != "patch")⟩)

def encodePatchConfig (pc : PatchConfig) : TomlValue :=
  .table [("path", .str pc.path)]

def encodePatchGroup (g : List (String × PatchConfig)) : TomlValue :=
  .table (g.map (fun e => (e.1, encodePatchConfig e.2)))

def encodePatchTable (t : List (String × List (String × PatchConfig))) : TomlValue :=
  .table (t.map (fun g => (g.1, encodePatchGroup g.2)))

/-- `CargoConfig::save` (`config.rs:98-108`), at the document level:
serialize the typed `patch` section (when present) together with the
pass-through content. -/
def save_config (cfg : CargoConfig) : List (String × TomlValue) :=
  (match cfg.patch with
   | some t => [("patch", encodePatchTable t)]
   | none => []) ++ cfg.other

/-- A filesystem path: an absolute flag plus components (model of the Rust
`PathBuf` values the reconciler manipulates). -/
structure RPath where
  absolute : Bool
  comps : List String
deriving DecidableEq

/-- The relative-path normalization inside `add_patch_with_source`
(`config.rs:74-84`): an absolute path is made relative to the current
working directory via `Path::strip_prefix` when that directory is a prefix
of it, and kept absolute otherwise; a relative path is kept as given. -/
def normalize_patch_path (current_dir local_path : RPath) : RPath :=
  if local_path.absolute then
    if current_dir.absolute && current_dir.comps.isPrefixOf local_path.comps then
      ⟨false, local_path.comps.drop current_dir.comps.length⟩
    else local_path
  else local_path

/-- `Path::to_string_lossy` on the model. -/
def path_to_string (p : RPath) : String :=
  (if p.absolute then "/" else "") ++ String.intercalate "/" p.comps

/-- `HashMap::insert` on the association-list model: an existing key keeps
its place and gets the new value; a new key is appended. -/
def assocInsert {β : Type} (l : List (String × β)) (k : String) (v : β) :
    List (String × β) :=
  if l.any (fun e => e.1 == k) then
    l.map (fun e => if e.1 == k then (e.1, v) else e)
  else l ++ [(k, v)]

/-- `CargoConfig::add_patch_with_source` (`config.rs:58-96`): ensure the
`patch` table and the group for `patch_source` exist, normalize the local
path relative to `current_dir`, and insert/overwrite the entry for
`crate_name` inside that group. -/
def add_patch_with_source (cfg : CargoConfig) (crate_name : String)
    (local_path : RPath) (patch_source : String) (current_dir : RPath) :
    CargoConfig :=
  let table0 := cfg.patch.getD []
  let table1 :=
    if table0.any (fun g => g.1 == patch_source) then table0
    else table0 ++ [(patch_source, [])]
  let path_str := path_to_string (normalize_patch_path current_dir local_path)
  let table2 := table1.map (fun g =>
    if g.1 == patch_source then (g.1, assocInsert g.2 crate_name ⟨path_str⟩) else g)
  { patch := some table2, other := cfg.other }

/-- `CargoConfig::add_patch` (`config.rs:54-56`): upsert into the
`crates-io` group. -/
def add_patch (cfg : CargoConfig) (crate_name : String) (local_path : RPath)
    (current_dir : RPath) : CargoConfig :=
  add_patch_with_source cfg crate_name local_path "crates-io" current_dir

/-- `CargoConfig::remove_patch` (`config.rs:137-161`): acting on the
`crates-io` group only, delete the named entry, prune the group when it
becomes (or already is) empty, prune the whole `patch` section when no
groups remain, and report whether an entry was removed. -/
def remove_patch (cfg : CargoConfig) (crate_name : String) : CargoConfig × Bool :=
  match cfg.patch with
  | none => (cfg, false)
  | some table =>
    match table.find? (fun g => g.1 == "crates-io") with
    | none => (cfg, false)
    | some g =>
      let entries := g.2
      let removed := entries.any (fun e => e.1 == crate_name)
      let entries2 := entries.eraseP (fun e => e.1 == crate_name)
      let table2 :=
        if entries2.isEmpty then table.eraseP (fun g2 => g2.1 == "crates-io")
        else table.map (fun g2 => if g2.1 == "crates-io" then (g2.1, entries2) else g2)
      let patchNew := if table2.isEmpty then none else some table2
      ({ patch := patchNew, other := cfg.other }, removed)

/-- The entries stored under group `src`, read off the typed section. -/
def patch_group (cfg : CargoConfig) (src : String) :
    Option (List (String × PatchConfig)) :=
  ((cfg.patch.getD []).find? (fun g => g.1 == src)).map (fun g => g.2)

/-- The `(name, path)` pairs stored under the `crates-io` group, in storage
order. -/
def registry_pairs (cfg : CargoConfig) : List (String × String) :=
  match patch_group cfg "crates-io" with
  | none => []
  | some entries => entries.map (fun e => (e.1, e.2.path))

/-- `CargoConfig::list_patches` (`config.rs:163-175`) iterates the
`crates-io` `HashMap` and pushes one `(name, path)` pair per entry.  The
iteration order of the Rust `HashMap` is unspecified (randomized per
process), so the outputs the function can produce on a given configuration
are exactly the permutations of the stored pairs. -/
def list_patches_possible (cfg : CargoConfig) (out : List (String × String)) :
    Prop :=
  out.Perm (registry_pairs cfg)

/-- One in-memory mutation between loading and saving the override
document: upserting one entry, removing one, or doing nothing. -/
inductive ConfigMutation where
  | noop
  | upsert (crate_name : String) (local_path : RPath) (patch_source : String)
      (current_dir : RPath)
  | removal (crate_name : String)

def apply_mutation (cfg : CargoConfig) : ConfigMutation → CargoConfig
  | .noop => cfg
  | .upsert n p src cur => add_patch_with_source cfg n p src cur
  | .removal n => (remove_patch cfg n).1

/-- Top-level lookup in a document. -/
def doc_lookup (doc : List (String × TomlValue)) (k : String) : Option TomlValue :=
  (doc.find? (fun kv => kv.1 == k)).map (fun kv => kv.2)

theorem apply_mutation_other (cfg : CargoConfig) (m : ConfigMutation) :
    (apply_mutation cfg m).other = cfg.other := by
  cases m with
  | noop => rfl
  | upsert n p src cur => rfl
  | removal n =>
    show (remove_patch cfg n).1.other = cfg.other
    unfold remove_patch
    split
    · rfl
    · split
      · rfl
      · rfl

theorem doc_lookup_filter_patch (doc : List (String × TomlValue)) (k : String)
    (hk : k ≠ "patch") :
    doc_lookup (doc.filter (fun kv => kv.1 != "patch")) k = doc_lookup doc k := by
  induction doc with
  | nil => rfl
  | cons kv rest ih =>
    obtain ⟨k1, v1⟩ := kv
    unfold doc_lookup at ih ⊢
    by_cases h1 : k1 = "patch"
    · subst h1
      have h3 : (("patch" : String) == k) = false :=
        beq_eq_false_iff_ne.mpr (fun he => hk he.symm)
      simp only [List.filter_cons, List.find?_cons, bne_self_eq_false, h3]
      exact ih
    · have hkeep : (k1 != "patch") = true := by simpa using h1
      simp only [List.filter_cons, List.find?_cons, hkeep, if_true]
      cases hek : (k1 == k) with
      | true => simp
      | false => simpa using ih

theorem load_config_other (doc : List (String × TomlValue)) (cfg : CargoConfig)
    (h : load_config doc = .ok cfg) :
    cfg.other = doc.filter (fun kv => kv.1 != "patch") := by
  unfold load_config at h
  split at h
  · cases h; rfl
  · unfold Except.map at h
    split at h
    · cases h
    · cases h; rfl

/-- Claim C3: loading a pre-existing override document, applying one
mutation (an upsert, a removal, or nothing), and saving leaves every
unrelated top-level key intact: any key other than `patch` maps to the same
value in the saved document as in the original. -/
theorem roundtrip_preserves_unrelated (doc : List (String × TomlValue))
    (cfg : CargoConfig) (m : ConfigMutation)
    (hload : load_config doc = .ok cfg) :
    ∀ k, k ≠ "patch" →
      doc_lookup (save_config (apply_mutation cfg m)) k = doc_lookup doc k := by
  intro k hk
  have hother : (apply_mutation cfg m).other = cfg.other := apply_mutation_other cfg m
  have hcfg : cfg.other = doc.filter (fun kv => kv.1 != "patch") :=
    load_config_other doc cfg hload
  unfold save_config
  cases hp : (apply_mutation cfg m).patch with
  | none =>
    rw [List.nil_append, hother, hcfg]
    exact doc_lookup_filter_patch doc k hk
  | some t =>
    rw [List.cons_append, List.nil_append]
    have h3 : (("patch" : String) == k) = false :=
      beq_eq_false_iff_ne.mpr (fun he => hk he.symm)
    have hgoal := doc_lookup_filter_patch doc k hk
    unfold doc_lookup at hgoal ⊢
    simp only [List.find?_cons, h3]
    rw [hother, hcfg]
    exact hgoal

/-- A pre-existing override document with an unrelated `build` section and
one patch entry. -/
def exampleDoc : List (String × TomlValue) :=
  [("build", .table [("jobs", .int 4)]),
   ("patch", .table [("crates-io",
      .table [("serde", .table [("path", .str "crates/serde")])])])]

/-- The configuration `exampleDoc` loads to. -/
def exampleLoadedConfig : CargoConfig :=
  { patch := some [("crates-io", [("serde", ⟨"crates/serde"⟩)])],
    other := [("build", .table [("jobs", .int 4)])] }

/-- Concrete instantiation of `roundtrip_preserves_unrelated`: loading
`exampleDoc`, upserting the `serde` entry to a new path, and saving keeps
the `build` section unchanged. -/
theorem roundtrip_preserves_unrelated_witness :
    doc_lookup
      (save_config (apply_mutation exampleLoadedConfig
        (.upsert "serde" ⟨false, ["crates", "serde2"]⟩ "crates-io" ⟨true, ["w"]⟩)))
      "build" = doc_lookup exampleDoc "build" :=
  roundtrip_preserves_unrelated exampleDoc exampleLoadedConfig _ (by rfl) "build"
    (by decide)

/-- A configuration built by upserting `alpha` and then `beta` into the
registry group of an empty document. -/
def twoUpsertConfig : CargoConfig :=
  add_patch (add_patch ⟨none, []⟩ "alpha" ⟨false, ["crates", "alpha"]⟩ ⟨true, ["w"]⟩)
    "beta" ⟨false, ["crates", "beta"]⟩ ⟨true, ["w"]⟩

/-- Claim C5 counterexample: after inserting `alpha` then `beta`, the
reversed pair list is among the outputs the list operation can produce
(the underlying `HashMap` iteration order is unspecified and randomized),
so the operation does not return the stored pairs in insertion order. -/
theorem list_patches_order_counterexample :
    list_patches_possible twoUpsertConfig
      [("beta", "crates/beta"), ("alpha", "crates/alpha")] ∧
    [("beta", "crates/beta"), ("alpha", "crates/alpha")]
      ≠ [("alpha", "crates/alpha"), ("beta", "crates/beta")] ∧
    registry_pairs twoUpsertConfig
      = [("alpha", "crates/alpha"), ("beta", "crates/beta")] := by
  have hpairs : registry_pairs twoUpsertConfig
      = [("alpha", "crates/alpha"), ("beta", "crates/beta")] := by rfl
  refine ⟨?_, by decide, hpairs⟩
  unfold list_patches_possible
  rw [hpairs]
  exact List.Perm.swap _ _ _

/-- Claim C5 (amended): every output the list operation can produce
contains exactly the `(crate_name, local_path)` pairs currently stored
under the registry group — same elements and same length — in an
unspecified order rather than insertion order. -/
theorem list_patches_amended (cfg : CargoConfig) (out : List (String × String))
    (h : list_patches_possible cfg out) :
    out.length = (registry_pairs cfg).length ∧
    ∀ p, p ∈ out ↔ p ∈ registry_pairs cfg :=
  ⟨h.length_eq, fun _ => h.mem_iff⟩

/-- Concrete instantiation of `list_patches_amended` at `twoUpsertConfig`
and the reversed output. -/
theorem list_patches_amended_witness :
    ([("beta", "crates/beta"), ("alpha", "crates/alpha")]).length
        = (registry_pairs twoUpsertConfig).length ∧
    ∀ p, p ∈ [("beta", "crates/beta"), ("alpha", "crates/alpha")]
        ↔ p ∈ registry_pairs twoUpsertConfig :=
  list_patches_amended twoUpsertConfig _ (by
    unfold list_patches_possible
    rw [(by rfl : registry_pairs twoUpsertConfig
      = [("alpha", "crates/alpha"), ("beta", "crates/beta")])]
    exact List.Perm.swap _ _ _)

/-! ### Name-similarity fallback (`src/main.rs`) -/

/-- `find_similar_crate` (`main.rs:389-419`): case-insensitive exact match
first, then substring containment in either direction, then prefix match in
either direction; within each rule the first candidate in inventory order
wins.  Inventory entries are `(name, path)` pairs. -/
def find_similar_crate (target_name : String) (crates : List (String × String)) :
    Option (String × String) :=
  match crates.find? (fun c => lower c.1.data == lower target_name.data) with
  | some c => some c
  | none =>
    match crates.find? (fun c =>
        isInfixB (lower target_name.data) (lower c.1.data)
        || isInfixB (lower c.1.data) (lower target_name.data)) with
    | some c => some c
    | none =>
      crates.find? (fun c =>
        isPrefixB (lower target_name.data) (lower c.1.data)
        || isPrefixB (lower c.1.data) (lower target_name.data))

/-- Claim C6: the similarity fallback tries case-insensitive exact match,
then substring containment in either direction, then prefix match in either
direction; the first rule with any match determines the result (ties within
a rule go to the earliest candidate, via `find?`), and if no rule matches
any candidate the result is `none`. -/
theorem find_similar_crate_stages (target : String) (crates : List (String × String)) :
    (∀ c, crates.find? (fun e => lower e.1.data == lower target.data) = some c →
      find_similar_crate target crates = some c) ∧
    (crates.find? (fun e => lower e.1.data == lower target.data) = none →
      ∀ c, crates.find? (fun e => isInfixB (lower target.data) (lower e.1.data)
          || isInfixB (lower e.1.data) (lower target.data)) = some c →
        find_similar_crate target crates = some c) ∧
    (crates.find? (fun e => lower e.1.data == lower target.data) = none →
      crates.find? (fun e => isInfixB (lower target.data) (lower e.1.data)
          || isInfixB (lower e.1.data) (lower target.data)) = none →
      find_similar_crate target crates
        = crates.find? (fun e => isPrefixB (lower target.data) (lower e.1.data)
            || isPrefixB (lower e.1.data) (lower target.data))) ∧
    ((∀ e ∈ crates,
        (lower e.1.data == lower target.data) = false ∧
        (isInfixB (lower target.data) (lower e.1.data)
          || isInfixB (lower e.1.data) (lower target.data)) = false ∧
        (isPrefixB (lower target.data) (lower e.1.data)
          || isPrefixB (lower e.1.data) (lower target.data)) = false) →
      find_similar_crate target crates = none) := by
  refine ⟨?_, ?_, ?_, ?_⟩
  · intro c h
    unfold find_similar_crate
    rw [h]
  · intro h1 c h2
    unfold find_similar_crate
    rw [h1, h2]
  · intro h1 h2
    unfold find_similar_crate
    rw [h1, h2]
  · intro hall
    unfold find_similar_crate
    rw [List.find?_eq_none.mpr (fun e he => by simp [(hall e he).1]),
      List.find?_eq_none.mpr (fun e he => by simp [(hall e he).2.1]),
      List.find?_eq_none.mpr (fun e he => by simp [(hall e he).2.2])]

/-- Concrete instantiation of `find_similar_crate_stages` on the claim's
example: for inventory `[("foo-core", p1), ("foo-utils", p2)]` and target
`"foo-core-x"`, the exact rule matches nothing and the substring rule
(target contains candidate) selects `"foo-core"` before the prefix rule is
tried. -/
theorem find_similar_crate_stages_witness :
    find_similar_crate "foo-core-x" [("foo-core", "p1"), ("foo-utils", "p2")]
      = some ("foo-core", "p1") :=
  (find_similar_crate_stages "foo-core-x" [("foo-core", "p1"), ("foo-utils", "p2")]).2.1
    (by decide) ("foo-core", "p1") (by decide)

/-- The refinement target for claim C10: `find_similar_crate` with the
final prefix-match stage removed. -/
def find_similar_crate_two_stage (target_name : String)
    (crates : List (String × String)) : Option (String × String) :=
  match crates.find? (fun c => lower c.1.data == lower target_name.data) with
  | some c => some c
  | none =>
    crates.find? (fun c =>
      isInfixB (lower target_name.data) (lower c.1.data)
      || isInfixB (lower c.1.data) (lower target_name.data))

/-- Claim C10: the similarity fallback returns the same result as its
variant without the prefix stage: a prefix match (either direction,
case-insensitively) is already a substring match, so whenever the prefix
stage runs, it finds nothing. -/
theorem find_similar_crate_eq_two_stage (target : String)
    (crates : List (String × String)) :
    find_similar_crate target crates = find_similar_crate_two_stage target crates := by
  unfold find_similar_crate find_similar_crate_two_stage
  cases h1 : crates.find? (fun c => lower c.1.data == lower target.data) with
  | some c => rfl
  | none =>
    cases h2 : crates.find? (fun c =>
        isInfixB (lower target.data) (lower c.1.data)
        || isInfixB (lower c.1.data) (lower target.data)) with
    | some c => rfl
    | none =>
      rw [List.find?_eq_none] at h2
      rw [List.find?_eq_none.mpr ?_]
      intro c hc hpre
      apply h2 c hc
      have hpre2 : isPrefixB (lower target.data) (lower c.1.data) = true
          ∨ isPrefixB (lower c.1.data) (lower target.data) = true := by
        simpa using hpre
      rcases hpre2 with h | h
      · simp [isPrefixB_isInfixB _ _ h]
      · simp [isPrefixB_isInfixB _ _ h]

/-- Claim C9 counterexample: a declaration with none of git/path/version
fails classification with an error naming it, yet enumeration silently
omits the declaration, returning an empty list instead of surfacing the
error to the caller. -/
theorem enumeration_drops_classification_error :
    parse_dependency_definition "broken" (.Detailed none none none none none none [])
      = .error "Invalid dependency definition for 'broken'" ∧
    get_all_dependencies
        ⟨some [("broken", .Detailed none none none none none none [])], none, none⟩
      = [] :=
  ⟨rfl, rfl⟩

theorem keys_nodup_eq {β : Type} (l : List (String × β))
    (hnodup : (l.map (fun e => e.1)).Nodup) (a : String) (b c : β)
    (hb : (a, b) ∈ l) (hc : (a, c) ∈ l) : b = c := by
  induction l with
  | nil => cases hb
  | cons e t ih =>
    rw [List.map_cons, List.nodup_cons] at hnodup
    rcases List.mem_cons.mp hb with rfl | hb2
    · rcases List.mem_cons.mp hc with he | hc2
      · exact (congrArg Prod.snd he).symm
      · exact absurd (List.mem_map.mpr ⟨(a, c), hc2, rfl⟩) hnodup.1
    · rcases List.mem_cons.mp hc with rfl | hc2
      · exact absurd (List.mem_map.mpr ⟨(a, b), hb2, rfl⟩) hnodup.1
      · exact ih hnodup.2 hb2 hc2

theorem parse_name_eq (n : String) (d : DependencyDefinition)
    (info : DependencyInfo) (h : parse_dependency_definition n d = .ok info) :
    info.name = n := by
  unfold parse_dependency_definition at h
  cases d with
  | Simple v => cases h; rfl
  | Detailed v g br tg rv p o =>
    cases g with
    | some gu => cases h; rfl
    | none =>
      cases p with
      | some ps => cases h; rfl
      | none =>
        cases v with
        | some vs => cases h; rfl
        | none => cases h

/-- Claim C9 (amended): enumeration is total and never surfaces a
classification error: a declaration that fails to classify contributes no
element to the result (under the manifest's key uniqueness), while every
declaration that classifies successfully appears in the result. -/
theorem enumeration_omits_failed (deps : List (String × DependencyDefinition)) :
    (∀ n d, (n, d) ∈ deps → ∀ e, parse_dependency_definition n d = .error e →
      (deps.map (fun nd => nd.1)).Nodup →
      ∀ info ∈ parse_dependencies deps, info.name ≠ n) ∧
    (∀ n d info, (n, d) ∈ deps → parse_dependency_definition n d = .ok info →
      info ∈ parse_dependencies deps) := by
  constructor
  · intro n d hmem e herr hnodup info hinfo hname
    obtain ⟨⟨n2, d2⟩, hmem2, hok2⟩ := List.mem_filterMap.mp hinfo
    have hok3 : parse_dependency_definition n2 d2 = .ok info := by
      cases hpd : parse_dependency_definition n2 d2 with
      | ok i => rw [hpd] at hok2; cases hok2; rfl
      | error er => rw [hpd] at hok2; cases hok2
    have hn2 : n2 = n := by rw [← hname]; exact (parse_name_eq n2 d2 info hok3).symm
    subst hn2
    have hd : d2 = d := keys_nodup_eq deps hnodup n2 d2 d hmem2 hmem
    rw [hd, herr] at hok3
    cases hok3
  · intro n d info hmem hok
    exact List.mem_filterMap.mpr ⟨(n, d), hmem, by rw [hok]; rfl⟩

/-- Concrete instantiation of `enumeration_omits_failed`: with one valid and
one invalid declaration, the invalid one contributes nothing and the valid
one appears. -/
theorem enumeration_omits_failed_witness :
    (∀ info ∈ parse_dependencies
        [("good", .Simple "1.0"), ("broken", .Detailed none none none none none none [])],
      info.name ≠ "broken") ∧
    (⟨"good", .Version "1.0"⟩ : DependencyInfo) ∈ parse_dependencies
        [("good", .Simple "1.0"), ("broken", .Detailed none none none none none none [])] := by
  constructor
  · exact (enumeration_omits_failed _).1 "broken" _
      (List.mem_cons_of_mem _ (List.mem_cons_self _ _))
      "Invalid dependency definition for 'broken'" (by rfl) (by decide)
  · exact (enumeration_omits_failed _).2 "good" (.Simple "1.0") _
      (List.mem_cons_self _ _) (by rfl)

/-! ### Association-list lemmas for the `HashMap` model -/

theorem bool_eq_false {b : Bool} (h : ¬ b = true) : b = false := by
  cases b with
  | true => exact absurd rfl h
  | false => rfl

theorem find?_map_keyfix {β : Type} (t : List (String × β))
    (u : (String × β) → (String × β)) (hkey : ∀ e, (u e).1 = e.1) (g : String) :
    (t.map u).find? (fun e => e.1 == g) = (t.find? (fun e => e.1 == g)).map u := by
  induction t with
  | nil => rfl
  | cons e t ih =>
    cases heg : (e.1 == g) with
    | true => simp [List.find?_cons, hkey, heg]
    | false => simp [List.find?_cons, hkey, heg, ih]

theorem keys_map_keyfix {β : Type} (t : List (String × β))
    (u : (String × β) → (String × β)) (hkey : ∀ e, (u e).1 = e.1) :
    (t.map u).map (fun e => e.1) = t.map (fun e => e.1) := by
  induction t with
  | nil => rfl
  | cons e t ih => simp [hkey, ih]

theorem countP_map_keyfix {β : Type} (t : List (String × β))
    (u : (String × β) → (String × β)) (hkey : ∀ e, (u e).1 = e.1) (g : String) :
    (t.map u).countP (fun e => e.1 == g) = t.countP (fun e => e.1 == g) := by
  induction t with
  | nil => rfl
  | cons e t ih => simp [List.countP_cons, hkey, ih]

theorem countP_key_eq_count {β : Type} (l : List (String × β)) (m : String) :
    l.countP (fun e => e.1 == m) = (l.map (fun e => e.1)).count m := by
  rw [List.count_eq_countP, List.countP_map]
  rfl

theorem countP_key_le_one {β : Type} (l : List (String × β))
    (h : (l.map (fun e => e.1)).Nodup) (m : String) :
    l.countP (fun e => e.1 == m) ≤ 1 := by
  rw [countP_key_eq_count]
  exact List.nodup_iff_count_le_one.mp h m

theorem find?_eraseP_other {β : Type} (t : List (String × β)) (k g : String)
    (hgk : g ≠ k) :
    (t.eraseP (fun e => e.1 == k)).find? (fun e => e.1 == g)
      = t.find? (fun e => e.1 == g) := by
  induction t with
  | nil => rfl
  | cons e t ih =>
    cases hek : (e.1 == k) with
    | true =>
      have he1 : e.1 = k := by simpa using hek
      have heg : (e.1 == g) = false := by
        rw [he1]
        exact beq_eq_false_iff_ne.mpr (fun h => hgk h.symm)
      simp [List.eraseP_cons, hek, List.find?_cons, heg]
    | false =>
      cases heg : (e.1 == g) with
      | true => simp [List.eraseP_cons, hek, List.find?_cons, heg]
      | false => simp [List.eraseP_cons, hek, List.find?_cons, heg, ih]

theorem find?_eraseP_empty {β : Type} (t : List (String × β)) (k g : String)
    (hgk : g ≠ k) (he : t.eraseP (fun e => e.1 == k) = []) :
    t.find? (fun e => e.1 == g) = none := by
  cases t with
  | nil => rfl
  | cons e t2 =>
    cases hek : (e.1 == k) with
    | true =>
      have he1 : e.1 = k := by simpa using hek
      have heg : (e.1 == g) = false := by
        rw [he1]
        exact beq_eq_false_iff_ne.mpr (fun h => hgk h.symm)
      have ht2 : t2 = [] := by simpa [List.eraseP_cons, hek] using he
      subst ht2
      simp [List.find?_cons, heg]
    | false =>
      exfalso
      simp [List.eraseP_cons, hek] at he

theorem map_keyfix_id {β : Type} (t : List (String × β)) (k : String)
    (u : (String × β) → (String × β)) (hfix : ∀ e ∈ t, (e.1 == k) = false → u e = e)
    (hall : ∀ e ∈ t, (e.1 == k) = false) : t.map u = t := by
  induction t with
  | nil => rfl
  | cons e t ih =>
    rw [List.map_cons,
      hfix e (List.mem_cons_self _ _) (hall e (List.mem_cons_self _ _)),
      ih (fun e2 he2 => hfix e2 (List.mem_cons_of_mem _ he2))
        (fun e2 he2 => hall e2 (List.mem_cons_of_mem _ he2))]

theorem assocInsert_nodup {β : Type} (l : List (String × β)) (k : String) (v : β)
    (h : (l.map (fun e => e.1)).Nodup) :
    ((assocInsert l k v).map (fun e => e.1)).Nodup := by
  unfold assocInsert
  by_cases ha : l.any (fun e => e.1 == k) = true
  · rw [if_pos ha,
      keys_map_keyfix l (fun e => if e.1 == k then (e.1, v) else e)
        (fun e => by cases he : (e.1 == k) <;> simp [he])]
    exact h
  · have ha2 : l.any (fun e => e.1 == k) = false := bool_eq_false ha
    rw [if_neg ha, List.map_append]
    refine List.Nodup.append h (by simp) ?_
    intro a ha1 hamem
    simp only [List.map_cons, List.map_nil, List.mem_singleton] at hamem
    obtain ⟨e, he, hkey⟩ := List.mem_map.mp ha1
    have := List.any_eq_false.mp ha2 e he
    rw [hkey, hamem] at this
    simp at this

theorem assocInsert_find_self {β : Type} (l : List (String × β)) (k : String) (v : β) :
    (assocInsert l k v).find? (fun e => e.1 == k) = some (k, v) := by
  unfold assocInsert
  by_cases ha : l.any (fun e => e.1 == k) = true
  · rw [if_pos ha,
      find?_map_keyfix l (fun e => if e.1 == k then (e.1, v) else e)
        (fun e => by cases he : (e.1 == k) <;> simp [he]) k]
    obtain ⟨g0, hg0⟩ := Option.isSome_iff_exists.mp
      (List.find?_isSome.mpr (List.any_eq_true.mp ha))
    have hpred := List.find?_some hg0
    have hg0k : g0.1 = k := by simpa using hpred
    rw [hg0]
    simp [hpred, hg0k]
  · have ha2 : l.any (fun e => e.1 == k) = false := bool_eq_false ha
    rw [if_neg ha, List.find?_append,
      List.find?_eq_none.mpr (fun e he => by simp [List.any_eq_false.mp ha2 e he])]
    simp [List.find?_cons]

theorem countP_assocInsert {β : Type} (l : List (String × β)) (k : String) (v : β)
    (h : (l.map (fun e => e.1)).Nodup) :
    (assocInsert l k v).countP (fun e => e.1 == k) = 1 := by
  unfold assocInsert
  by_cases ha : l.any (fun e => e.1 == k) = true
  · rw [if_pos ha,
      countP_map_keyfix l (fun e => if e.1 == k then (e.1, v) else e)
        (fun e => by cases he : (e.1 == k) <;> simp [he]) k]
    refine Nat.le_antisymm (countP_key_le_one l h k) ?_
    rw [countP_key_eq_count]
    refine List.count_pos_iff.mpr ?_
    obtain ⟨e, he, hek⟩ := List.any_eq_true.mp ha
    have : e.1 = k := by simpa using hek
    exact List.mem_map.mpr ⟨e, he, this⟩
  · have ha2 : l.any (fun e => e.1 == k) = false := bool_eq_false ha
    rw [if_neg ha, List.countP_append,
      List.countP_eq_zero.mpr (fun e he => by simp [List.any_eq_false.mp ha2 e he])]
    simp [List.countP_cons]

/-- The combined effect of group creation plus entry insertion on the group
looked up afterwards. -/
theorem table_ensure_update_find {β : Type} (t0 : List (String × β)) (k : String)
    (d : β) (F : β → β) :
    ((if t0.any (fun g => g.1 == k) then t0 else t0 ++ [(k, d)]).map
        (fun g => if g.1 == k then (g.1, F g.2) else g)).find? (fun g => g.1 == k)
      = some (k, F (((t0.find? (fun g => g.1 == k)).map (fun g => g.2)).getD d)) := by
  by_cases ha : t0.any (fun g => g.1 == k) = true
  · rw [if_pos ha,
      find?_map_keyfix t0 (fun g => if g.1 == k then (g.1, F g.2) else g)
        (fun e => by cases he : (e.1 == k) <;> simp [he]) k]
    obtain ⟨g0, hg0⟩ := Option.isSome_iff_exists.mp
      (List.find?_isSome.mpr (List.any_eq_true.mp ha))
    have hpred := List.find?_some hg0
    have hg0k : g0.1 = k := by simpa using hpred
    rw [hg0]
    simp [hpred, hg0k]
  · have ha2 : t0.any (fun g => g.1 == k) = false := bool_eq_false ha
    rw [if_neg ha, List.map_append, List.find?_append,
      find?_map_keyfix t0 (fun g => if g.1 == k then (g.1, F g.2) else g)
        (fun e => by cases he : (e.1 == k) <;> simp [he]) k,
      List.find?_eq_none.mpr (fun e he => by simp [List.any_eq_false.mp ha2 e he])]
    simp [List.find?_cons]

/-- Well-formedness inherited from the Rust `HashMap`s: keys are unique at
both nesting levels of the `patch` section. -/
def ConfigWF (cfg : CargoConfig) : Prop :=
  ∀ t, cfg.patch = some t →
    ((t.map (fun g => g.1)).Nodup ∧ ∀ g ∈ t, (g.2.map (fun e => e.1)).Nodup)

theorem patch_group_add (cfg : CargoConfig) (n : String) (p : RPath) (src : String)
    (cur : RPath) :
    patch_group (add_patch_with_source cfg n p src cur) src
      = some (assocInsert ((patch_group cfg src).getD []) n
          ⟨path_to_string (normalize_patch_path cur p)⟩) := by
  unfold patch_group add_patch_with_source
  simp only [Option.getD_some]
  rw [table_ensure_update_find (cfg.patch.getD []) src []
    (fun b => assocInsert b n ⟨path_to_string (normalize_patch_path cur p)⟩)]
  rfl

theorem patch_group_nodup (cfg : CargoConfig) (src : String) (h : ConfigWF cfg) :
    (((patch_group cfg src).getD []).map (fun e => e.1)).Nodup := by
  unfold patch_group
  cases hp : cfg.patch with
  | none => simp
  | some t =>
    simp only [Option.getD_some]
    cases hf : t.find? (fun g => g.1 == src) with
    | none => simp
    | some g =>
      exact (h t hp).2 g (List.mem_of_find?_eq_some hf)

/-- Group creation plus entry insertion preserves key uniqueness and any
per-group property `Q` that holds of the default group and is preserved by
the update. -/
theorem table_ensure_update_WF {β : Type} (t0 : List (String × β)) (k : String)
    (d : β) (F : β → β) (Q : β → Prop)
    (hkeys : (t0.map (fun g => g.1)).Nodup)
    (hinner : ∀ g ∈ t0, Q g.2) (hd : Q d) (hF : ∀ b, Q b → Q (F b)) :
    (((if t0.any (fun g => g.1 == k) then t0 else t0 ++ [(k, d)]).map
        (fun g => if g.1 == k then (g.1, F g.2) else g)).map (fun g => g.1)).Nodup ∧
    ∀ g ∈ (if t0.any (fun g => g.1 == k) then t0 else t0 ++ [(k, d)]).map
        (fun g => if g.1 == k then (g.1, F g.2) else g), Q g.2 := by
  constructor
  · rw [keys_map_keyfix _ (fun g => if g.1 == k then (g.1, F g.2) else g)
      (fun e => by cases he : (e.1 == k) <;> simp [he])]
    by_cases ha : t0.any (fun g => g.1 == k) = true
    · rw [if_pos ha]
      exact hkeys
    · have ha2 : t0.any (fun g => g.1 == k) = false := bool_eq_false ha
      rw [if_neg ha, List.map_append]
      refine List.Nodup.append hkeys (by simp) ?_
      intro a ha1 hamem
      simp only [List.map_cons, List.map_nil, List.mem_singleton] at hamem
      obtain ⟨e, he, hkey⟩ := List.mem_map.mp ha1
      have := List.any_eq_false.mp ha2 e he
      rw [hkey, hamem] at this
      simp at this
  · intro g hg
    obtain ⟨g1, hg1, rfl⟩ := List.mem_map.mp hg
    have hQ1 : Q g1.2 := by
      by_cases ha : t0.any (fun g => g.1 == k) = true
      · rw [if_pos ha] at hg1
        exact hinner g1 hg1
      · rw [if_neg ha] at hg1
        rcases List.mem_append.mp hg1 with h1 | h1
        · exact hinner g1 h1
        · simp only [List.mem_singleton] at h1
          rw [h1]
          exact hd
    cases he : (g1.1 == k) with
    | true => simpa [he] using hF g1.2 hQ1
    | false => simpa [he] using hQ1

theorem add_patch_preserves_WF (cfg : CargoConfig) (n : String) (p : RPath)
    (src : String) (cur : RPath) (h : ConfigWF cfg) :
    ConfigWF (add_patch_with_source cfg n p src cur) := by
  have hkeys0 : ((cfg.patch.getD []).map (fun g => g.1)).Nodup := by
    cases hp : cfg.patch with
    | none => simp
    | some t0 => exact (h t0 hp).1
  have hinner0 : ∀ g ∈ cfg.patch.getD [], (g.2.map (fun e => e.1)).Nodup := by
    cases hp : cfg.patch with
    | none => simp
    | some t0 => exact (h t0 hp).2
  have main := table_ensure_update_WF (cfg.patch.getD []) src []
    (fun b => assocInsert b n ⟨path_to_string (normalize_patch_path cur p)⟩)
    (fun b => (b.map (fun e => e.1)).Nodup)
    hkeys0 hinner0 (by simp) (fun b hb => assocInsert_nodup b n _ hb)
  intro t ht
  unfold add_patch_with_source at ht
  have ht2 := Option.some.inj ht
  rw [← ht2]
  exact main

/-- One upsert request: the arguments of `add_patch_with_source`, with the
working directory the path normalization reads. -/
structure UpsertOp where
  crate_name : String
  local_path : RPath
  patch_source : String
  current_dir : RPath

def apply_upserts (cfg : CargoConfig) (ops : List UpsertOp) : CargoConfig :=
  ops.foldl (fun c op =>
    add_patch_with_source c op.crate_name op.local_path op.patch_source op.current_dir)
    cfg

/-- Claim C7: crate names are unique within one group: well-formedness
(unique keys at both levels of the patch section) is preserved by any
sequence of upserts, so each (group, crate) pair maps to at most one entry;
and upserting twice with the same (group, name) and different paths leaves
exactly one entry for that name, holding the latest (normalized) path. -/
theorem upsert_uniqueness :
    (∀ cfg (ops : List UpsertOp), ConfigWF cfg → ConfigWF (apply_upserts cfg ops)) ∧
    (∀ cfg t, ConfigWF cfg → cfg.patch = some t →
      ∀ g ∈ t, ∀ m : String, g.2.countP (fun e => e.1 == m) ≤ 1) ∧
    (∀ cfg n p1 p2 src cur, ConfigWF cfg →
      ∃ entries,
        patch_group (add_patch_with_source
            (add_patch_with_source cfg n p1 src cur) n p2 src cur) src = some entries ∧
        entries.countP (fun e => e.1 == n) = 1 ∧
        entries.find? (fun e => e.1 == n)
          = some (n, ⟨path_to_string (normalize_patch_path cur p2)⟩)) := by
  refine ⟨?_, ?_, ?_⟩
  · intro cfg ops
    induction ops generalizing cfg with
    | nil => intro h; exact h
    | cons op ops ih =>
      intro h
      exact ih _ (add_patch_preserves_WF cfg op.crate_name op.local_path
        op.patch_source op.current_dir h)
  · intro cfg t h hp g hg m
    exact countP_key_le_one g.2 ((h t hp).2 g hg) m
  · intro cfg n p1 p2 src cur h
    have h2 := patch_group_add (add_patch_with_source cfg n p1 src cur) n p2 src cur
    rw [patch_group_add cfg n p1 src cur] at h2
    simp only [Option.getD_some] at h2
    have hnodup1 : ((assocInsert ((patch_group cfg src).getD []) n
        ⟨path_to_string (normalize_patch_path cur p1)⟩).map (fun e => e.1)).Nodup :=
      assocInsert_nodup _ n _ (patch_group_nodup cfg src h)
    exact ⟨_, h2, countP_assocInsert _ n _ hnodup1, assocInsert_find_self _ n _⟩

/-- Concrete instantiation of `upsert_uniqueness`: two upserts of `dep`
with different paths into an empty configuration leave exactly one entry
for `dep`, holding the latest path. -/
theorem upsert_uniqueness_witness :
    ∃ entries,
      patch_group (add_patch_with_source
          (add_patch_with_source ⟨none, []⟩ "dep" ⟨false, ["a"]⟩ "crates-io" ⟨true, ["w"]⟩)
          "dep" ⟨false, ["b"]⟩ "crates-io" ⟨true, ["w"]⟩) "crates-io" = some entries ∧
      entries.countP (fun e => e.1 == "dep") = 1 ∧
      entries.find? (fun e => e.1 == "dep")
        = some ("dep", ⟨path_to_string (normalize_patch_path ⟨true, ["w"]⟩ ⟨false, ["b"]⟩)⟩) :=
  upsert_uniqueness.2.2 ⟨none, []⟩ "dep" ⟨false, ["a"]⟩ ⟨false, ["b"]⟩ "crates-io"
    ⟨true, ["w"]⟩ (fun _t ht => Option.noConfusion ht)

theorem map_update_self {β : Type} (t : List (String × β)) (k : String) (v : β)
    (hfind : ∀ g ∈ t, (g.1 == k) = true → g.2 = v) :
    t.map (fun e => if e.1 == k then (e.1, v) else e) = t := by
  induction t with
  | nil => rfl
  | cons e t ih =>
    rw [List.map_cons, ih (fun g hg => hfind g (List.mem_cons_of_mem _ hg))]
    obtain ⟨e1, e2⟩ := e
    cases he : ((e1, e2).1 == k) with
    | true =>
      have hv := hfind (e1, e2) (List.mem_cons_self _ _) he
      simp only at hv
      simp [he, hv]
    | false => simp [he]

theorem find?_eraseP_self_none {β : Type} (t : List (String × β)) (k : String)
    (hnodup : (t.map (fun e => e.1)).Nodup) :
    (t.eraseP (fun e => e.1 == k)).find? (fun e => e.1 == k) = none := by
  induction t with
  | nil => rfl
  | cons e t ih =>
    rw [List.map_cons, List.nodup_cons] at hnodup
    cases hek : (e.1 == k) with
    | true =>
      have he1 : e.1 = k := by simpa using hek
      simp only [List.eraseP_cons, hek, cond_true]
      apply List.find?_eq_none.mpr
      intro x hx hpx
      apply hnodup.1
      have hx1 : x.1 = k := by simpa using hpx
      exact List.mem_map.mpr ⟨x, hx, by rw [hx1, he1]⟩
    | false =>
      simp only [List.eraseP_cons, hek, cond_false, List.find?_cons]
      exact ih hnodup.2

/-- The document state whose registry group exists but is empty. -/
def emptyGroupConfig : CargoConfig := ⟨some [("crates-io", [])], []⟩

/-- Claim C8 counterexample: on a document whose registry group exists but
is empty, removing a name that is not present returns "not removed" as
claimed, but does not leave the document unchanged: the empty group (and,
with it, the whole patch section) is pruned. -/
theorem remove_patch_counterexample :
    remove_patch emptyGroupConfig "serde" = (⟨none, []⟩, false) ∧
    (⟨none, []⟩ : CargoConfig) ≠ emptyGroupConfig := by
  refine ⟨rfl, ?_⟩
  intro h
  exact Option.noConfusion (congrArg CargoConfig.patch h)

/-- Claim C8 (amended): removal acts only on the registry (`crates-io`)
group: the returned flag is true exactly when that group holds the name;
the pass-through content and every other group are untouched; on a document
whose registry group is absent, or non-empty and without the name, nothing
changes and the flag is false; when the registry group is present and
already empty, the flag is false and the empty group (and, if no groups
remain, the whole patch section) is still pruned; and after any removal the
registry group holds exactly the prior entries minus the named one, pruned
away entirely when that leaves it empty, with the whole patch section
pruned when the registry group was the only group. -/
theorem remove_patch_amended :
    (∀ cfg n, (remove_patch cfg n).2 = true ↔
      ∃ entries, patch_group cfg "crates-io" = some entries ∧
        ∃ e ∈ entries, e.1 = n) ∧
    (∀ cfg n, (remove_patch cfg n).1.other = cfg.other) ∧
    (∀ cfg n g, g ≠ "crates-io" →
      patch_group (remove_patch cfg n).1 g = patch_group cfg g) ∧
    (∀ cfg n, ConfigWF cfg →
      (∀ entries, patch_group cfg "crates-io" = some entries →
        entries ≠ [] ∧ ∀ e ∈ entries, (e.1 == n) = false) →
      remove_patch cfg n = (cfg, false)) ∧
    (∀ cfg n, ConfigWF cfg → patch_group cfg "crates-io" = some [] →
      (remove_patch cfg n).2 = false ∧
      patch_group (remove_patch cfg n).1 "crates-io" = none) ∧
    (∀ cfg n entries, ConfigWF cfg →
      patch_group cfg "crates-io" = some entries →
      patch_group (remove_patch cfg n).1 "crates-io"
        = if (entries.eraseP (fun e => e.1 == n)).isEmpty then none
          else some (entries.eraseP (fun e => e.1 == n))) ∧
    (∀ cfg n g0, cfg.patch = some [g0] → (g0.1 == "crates-io") = true →
      (g0.2.eraseP (fun e => e.1 == n)).isEmpty = true →
      (remove_patch cfg n).1.patch = none) := by
  refine ⟨?_, ?_, ?_, ?_, ?_, ?_, ?_⟩
  · intro cfg n
    obtain ⟨patchF, otherF⟩ := cfg
    unfold remove_patch patch_group
    cases patchF with
    | none => simp
    | some table =>
      simp only [Option.getD_some]
      cases hf : table.find? (fun g2 => g2.1 == "crates-io") with
      | none => simp
      | some g0 => simp [List.any_eq_true]
  · intro cfg n
    unfold remove_patch
    split
    · rfl
    · split
      · rfl
      · rfl
  · intro cfg n g hg
    obtain ⟨patchF, otherF⟩ := cfg
    unfold remove_patch
    cases patchF with
    | none => rfl
    | some table =>
      dsimp only
      cases hf : table.find? (fun g2 => g2.1 == "crates-io") with
      | none => rfl
      | some g0 =>
        dsimp only
        unfold patch_group
        dsimp only
        by_cases hemp : (List.eraseP (fun e => e.1 == n) g0.2).isEmpty = true
        · rw [if_pos hemp]
          by_cases htemp :
              (List.eraseP (fun g2 => g2.1 == "crates-io") table).isEmpty = true
          · rw [if_pos htemp]
            simp only [Option.getD_none, Option.getD_some]
            rw [find?_eraseP_empty table "crates-io" g hg (List.isEmpty_iff.mp htemp)]
            simp
          · rw [if_neg htemp]
            simp only [Option.getD_some]
            rw [find?_eraseP_other table "crates-io" g hg]
        · rw [if_neg hemp]
          by_cases htemp : ((table.map (fun g2 => if g2.1 == "crates-io"
              then (g2.1, List.eraseP (fun e => e.1 == n) g0.2) else g2)).isEmpty = true)
          · exfalso
            cases table with
            | nil => simp [List.find?] at hf
            | cons e t2 => simp at htemp
          · rw [if_neg htemp]
            simp only [Option.getD_some]
            rw [find?_map_keyfix table (fun g2 => if g2.1 == "crates-io"
                then (g2.1, List.eraseP (fun e => e.1 == n) g0.2) else g2)
              (fun e => by cases he : (e.1 == "crates-io") <;> simp [he]) g]
            cases hfg : table.find? (fun e => e.1 == g) with
            | none => rfl
            | some gg =>
              have hpred := List.find?_some hfg
              have hgg : gg.1 = g := by simpa using hpred
              have hne2 : gg.1 ≠ "crates-io" := by
                rw [hgg]
                exact hg
              simp [hne2]
  · intro cfg n hWF habs
    obtain ⟨patchF, otherF⟩ := cfg
    unfold remove_patch
    cases patchF with
    | none => rfl
    | some table =>
      dsimp only
      cases hf : table.find? (fun g2 => g2.1 == "crates-io") with
      | none => rfl
      | some g0 =>
        dsimp only
        have hpg : patch_group ⟨some table, otherF⟩ "crates-io" = some g0.2 := by
          unfold patch_group
          simp [hf]
        obtain ⟨hne, hnone⟩ := habs g0.2 hpg
        have her : g0.2.eraseP (fun e => e.1 == n) = g0.2 :=
          List.eraseP_of_forall_not (fun e he => by simp [hnone e he])
        have hany : g0.2.any (fun e => e.1 == n) = false :=
          List.any_eq_false.mpr (fun e he => by simp [hnone e he])
        have hemptyg : g0.2.isEmpty = false := by
          cases hg2 : g0.2 with
          | nil => exact absurd hg2 hne
          | cons a b => rfl
        have hupd2 : table.map (fun g2 => if g2.1 == "crates-io"
            then (g2.1, g0.2) else g2) = table := by
          apply map_update_self
          intro g2 hg2 hkey
          have hg21 : g2.1 = "crates-io" := by simpa using hkey
          have hg01 : g0.1 = "crates-io" := by simpa using (List.find?_some hf)
          have hmem0 : g0 ∈ table := List.mem_of_find?_eq_some hf
          have h1 : ("crates-io", g2.2) ∈ table := by
            rw [← hg21]
            simpa using hg2
          have h2 : ("crates-io", g0.2) ∈ table := by
            rw [← hg01]
            simpa using hmem0
          exact keys_nodup_eq table (hWF table rfl).1 "crates-io" g2.2 g0.2 h1 h2
        have htne : table.isEmpty = false := by
          cases table with
          | nil => simp [List.find?] at hf
          | cons a b => rfl
        rw [her, hany, hupd2]
        simp [hemptyg, htne]
  · intro cfg n hWF hpg
    obtain ⟨patchF, otherF⟩ := cfg
    unfold remove_patch
    cases patchF with
    | none =>
      exfalso
      unfold patch_group at hpg
      simp at hpg
    | some table =>
      dsimp only
      cases hf : table.find? (fun g2 => g2.1 == "crates-io") with
      | none =>
        exfalso
        unfold patch_group at hpg
        simp [hf] at hpg
      | some g0 =>
        dsimp only
        have hg02 : g0.2 = [] := by
          unfold patch_group at hpg
          simp [hf] at hpg
          exact hpg
        constructor
        · simp [hg02]
        · rw [hg02]
          simp only [List.eraseP_nil, List.isEmpty_nil, if_true]
          unfold patch_group
          dsimp only
          by_cases ht2 : (table.eraseP (fun g2 => g2.1 == "crates-io")).isEmpty = true
          · rw [if_pos ht2]
            simp
          · rw [if_neg ht2]
            simp only [Option.getD_some]
            rw [find?_eraseP_self_none table "crates-io" (hWF table rfl).1]
            rfl
  · intro cfg n entries hWF hpg
    obtain ⟨patchF, otherF⟩ := cfg
    unfold remove_patch
    cases patchF with
    | none =>
      exfalso
      unfold patch_group at hpg
      simp at hpg
    | some table =>
      dsimp only
      cases hf : table.find? (fun g2 => g2.1 == "crates-io") with
      | none =>
        exfalso
        unfold patch_group at hpg
        simp [hf] at hpg
      | some g0 =>
        dsimp only
        have hg02 : g0.2 = entries := by
          unfold patch_group at hpg
          simp [hf] at hpg
          exact hpg
        subst hg02
        have hg01 := List.find?_some hf
        by_cases hemp : (g0.2.eraseP (fun e => e.1 == n)).isEmpty = true
        · rw [if_pos hemp]
          by_cases ht2 : (table.eraseP (fun g2 => g2.1 == "crates-io")).isEmpty = true
          · rw [if_pos ht2]
            unfold patch_group
            simp [hemp]
          · rw [if_neg ht2]
            unfold patch_group
            simp only [Option.getD_some]
            rw [find?_eraseP_self_none table "crates-io" (hWF table rfl).1]
            simp [hemp]
        · rw [if_neg hemp]
          by_cases hmape : ((table.map (fun g2 => if g2.1 == "crates-io"
              then (g2.1, g0.2.eraseP (fun e => e.1 == n)) else g2)).isEmpty = true)
          · exfalso
            cases table with
            | nil => simp [List.find?] at hf
            | cons e t2 => simp at hmape
          · rw [if_neg hmape]
            unfold patch_group
            simp only [Option.getD_some]
            rw [find?_map_keyfix table (fun g2 => if g2.1 == "crates-io"
                then (g2.1, g0.2.eraseP (fun e => e.1 == n)) else g2)
              (fun e => by cases he : (e.1 == "crates-io") <;> simp [he]) "crates-io",
              hf]
            have hg01e : g0.1 = "crates-io" := by simpa using hg01
            simp [hg01e, hemp]
  · intro cfg n g0 hp hg01 hemp
    obtain ⟨patchF, otherF⟩ := cfg
    dsimp only at hp
    subst hp
    unfold remove_patch
    dsimp only
    have hfind : List.find? (fun g2 => g2.1 == "crates-io") [g0] = some g0 := by
      simp [List.find?_cons, hg01]
    rw [hfind]
    dsimp only
    rw [if_pos hemp]
    have her : List.eraseP (fun g2 => g2.1 == "crates-io") [g0] = [] := by
      simp [List.eraseP_cons, hg01]
    rw [her]
    simp

/-- Concrete instantiation of `remove_patch_amended`: removing an absent
name from a document whose registry group is non-empty leaves the document
unchanged and reports no removal; removing the only entry of the registry
group deletes it and prunes the group. -/
theorem remove_patch_amended_witness :
    (remove_patch ⟨some [("crates-io", [("serde", ⟨"crates/serde"⟩)])], []⟩ "tokio"
      = (⟨some [("crates-io", [("serde", ⟨"crates/serde"⟩)])], []⟩, false)) ∧
    patch_group (remove_patch
        ⟨some [("crates-io", [("serde", ⟨"crates/serde"⟩)])], []⟩ "serde").1 "crates-io"
      = none := by
  constructor
  · exact remove_patch_amended.2.2.2.1
      ⟨some [("crates-io", [("serde", ⟨"crates/serde"⟩)])], []⟩ "tokio"
      (fun t ht => by
        cases ht
        refine ⟨by decide, ?_⟩
        intro g hg
        simp only [List.mem_singleton] at hg
        subst hg
        decide)
      (fun entries hent => by
        have hpg : patch_group
            (⟨some [("crates-io", [("serde", ⟨"crates/serde"⟩)])], []⟩ : CargoConfig)
            "crates-io" = some [("serde", ⟨"crates/serde"⟩)] := by rfl
        rw [hpg] at hent
        cases hent
        refine ⟨by decide, ?_⟩
        intro e he
        simp only [List.mem_singleton] at he
        subst he
        decide)
  · have h := remove_patch_amended.2.2.2.2.2.1
      ⟨some [("crates-io", [("serde", ⟨"crates/serde"⟩)])], []⟩ "serde"
      [("serde", ⟨"crates/serde"⟩)]
      (fun t ht => by
        cases ht
        refine ⟨by decide, ?_⟩
        intro g hg
        simp only [List.mem_singleton] at hg
        subst hg
        decide)
      (by rfl)
    rw [h]
    decide

end Lpatch
